import Mathlib

/-!
Verification of the payout-extraction core of the Income-Calculator
repository (`pdfextracter.py`): the text normalizer, the German-locale
amount parser, the tiered payout-line locator, and the latest-payslip
file selector. Strings are modelled as lists of characters; Python
floats are modelled as exact rationals; the filesystem argument of the
file selector is modelled as an optional directory listing (absent when
the folder does not exist or is not a directory).
-/

namespace IncomeCalc

/-- Python `str.lower` restricted to the characters this program handles:
ASCII letters (via `Char.toLower`) and the German capital letters. -/
def pyLowerChar (c : Char) : Char :=
  if c = 'Ü' then 'ü'
  else if c = 'Ö' then 'ö'
  else if c = 'Ä' then 'ä'
  else if c = 'ẞ' then 'ß'
  else c.toLower

/-- Python `str.lower` over a whole line. -/
def pyLower (s : List Char) : List Char := s.map pyLowerChar

/-- Whitespace stripped by Python `str.strip()`. -/
def isPySpace (c : Char) : Bool :=
  c = ' ' || c = '\t' || c = '\n' || c = '\r' || c = '\x0b' || c = '\x0c'

/-- Python `str.strip()`. -/
def pyStrip (s : List Char) : List Char :=
  ((s.dropWhile isPySpace).reverse.dropWhile isPySpace).reverse

/-- Line-break characters recognised by Python `str.splitlines`. -/
def isLineBreak (c : Char) : Bool :=
  c = '\n' || c = '\r' || c = '\x0b' || c = '\x0c' || c = '\x1c' ||
    c = '\x1d' || c = '\x1e' || c = '\x85' || c = '\u2028' || c = '\u2029'

/-- Worker for `pySplitlines`: `cur` is the line currently being read. -/
def splitLinesAux : List Char → List Char → List (List Char)
  | [], cur => if cur.isEmpty then [] else [cur]
  | '\r' :: '\n' :: rest, cur => cur :: splitLinesAux rest []
  | c :: rest, cur =>
    if isLineBreak c then cur :: splitLinesAux rest []
    else splitLinesAux rest (cur ++ [c])

/-- Python `str.splitlines`. -/
def pySplitlines (s : List Char) : List (List Char) := splitLinesAux s []

/-- Python `str.replace` for a single-character pattern. -/
def replaceChar (pat : Char) (rep : List Char) (s : List Char) : List Char :=
  s.flatMap (fun c => if c = pat then rep else [c])

/-- Function `normalize` from `pdfextracter.py`: lowercase, then rewrite
ü→ue, ö→oe, ä→ae, ß→ss (in the source's order of `replace` calls). -/
def normalize (s : List Char) : List Char :=
  replaceChar 'ß' ['s', 's']
    (replaceChar 'ä' ['a', 'e']
      (replaceChar 'ö' ['o', 'e']
        (replaceChar 'ü' ['u', 'e'] (pyLower s))))

/-- Python `str.startswith`: does `s` start with `pat`? -/
def listStartsWith : List Char → List Char → Bool
  | [], _ => true
  | _ :: _, [] => false
  | p :: ps, c :: cs => p = c && listStartsWith ps cs

/-- Python substring containment `pat in s`. -/
def containsTok (pat : List Char) : List Char → Bool
  | [] => listStartsWith pat []
  | c :: cs => listStartsWith pat (c :: cs) || containsTok pat cs

/-! ## The amount grammar `(\d+(?:\.\d{3})*,\d{2})` (`AMOUNT_RE`)

A small backtracking matcher with Python `re` semantics: leftmost
starting position wins, `\d+` and the group star are greedy. -/

/-- Match `,\d{2}` at the head of the input, returning the consumed text. -/
def matchComma : List Char → Option (List Char)
  | ',' :: d1 :: d2 :: _ =>
    if d1.isDigit && d2.isDigit then some [',', d1, d2] else none
  | _ => none

/-- Match `(?:\.\d{3})*,\d{2}` at the head of the input, greedily, with
backtracking from the group star to `matchComma`. -/
def matchGroupsComma : List Char → Option (List Char)
  | '.' :: a :: b :: c :: rest =>
    if a.isDigit && b.isDigit && c.isDigit then
      match matchGroupsComma rest with
      | some m => some ('.' :: a :: b :: c :: m)
      | none => matchComma ('.' :: a :: b :: c :: rest)
    else matchComma ('.' :: a :: b :: c :: rest)
  | cs => matchComma cs

/-- Match `\d*(?:\.\d{3})*,\d{2}` at the head of the input, preferring to
consume more digits first (greedy `\d+` continuation). -/
def matchDigitsGroups : List Char → Option (List Char)
  | [] => matchGroupsComma []
  | c :: rest =>
    if c.isDigit then
      match matchDigitsGroups rest with
      | some m => some (c :: m)
      | none => matchGroupsComma (c :: rest)
    else matchGroupsComma (c :: rest)

/-- Match the full amount grammar anchored at the head of the input. -/
def matchAmountFrom : List Char → Option (List Char)
  | [] => none
  | c :: rest =>
    if c.isDigit then (matchDigitsGroups rest).map (fun m => c :: m)
    else none

/-- Search of `AMOUNT_RE`: leftmost match of the amount grammar. -/
def searchAmount : List Char → Option (List Char)
  | [] => none
  | c :: rest =>
    match matchAmountFrom (c :: rest) with
    | some m => some m
    | none => searchAmount rest

/-! Boolean recognisers for the shapes the matcher can return, used to
state that a returned token itself conforms to the amount grammar. -/

/-- Recognise exactly `,\d{2}`. -/
def isCommaTail : List Char → Bool
  | [',', d1, d2] => d1.isDigit && d2.isDigit
  | _ => false

/-- Recognise `(?:\.\d{3})*,\d{2}`. -/
def isGroupsTail : List Char → Bool
  | '.' :: a :: b :: c :: rest =>
    a.isDigit && b.isDigit && c.isDigit && isGroupsTail rest
  | cs => isCommaTail cs

/-- Recognise `\d*(?:\.\d{3})*,\d{2}`. -/
def isDigitsTail : List Char → Bool
  | [] => false
  | c :: rest => (c.isDigit && isDigitsTail rest) || isGroupsTail (c :: rest)

/-- Recognise the full amount grammar `\d+(?:\.\d{3})*,\d{2}`. -/
def isAmountToken : List Char → Bool
  | [] => false
  | c :: rest => c.isDigit && isDigitsTail rest

/-! ## `de_amount_to_float` -/

/-- Numeric value of a decimal digit. -/
def digitVal (c : Char) : ℕ := c.toNat - 48

/-- Value of a big-endian digit string. -/
def digitsToNat (cs : List Char) : ℕ := cs.foldl (fun n c => 10 * n + digitVal c) 0

/-- Python `float(s)` on strings of the shape `digits` or `digits.digits`,
as an exact rational. -/
def floatOfDecimalChars (cs : List Char) : ℚ :=
  let ip := cs.takeWhile (fun c => c ≠ '.')
  match cs.dropWhile (fun c => c ≠ '.') with
  | [] => (digitsToNat ip : ℚ)
  | _ :: frac => (digitsToNat ip : ℚ) + (digitsToNat frac : ℚ) / (10 : ℚ) ^ frac.length

/-- Function `de_amount_to_float` from `pdfextracter.py`: drop the thousands dots,
turn the decimal comma into a dot, read as a number. -/
def de_amount_to_float (s : List Char) : ℚ :=
  floatOfDecimalChars
    ((s.filter (fun c => c ≠ '.')).map (fun c => if c = ',' then '.' else c))

/-! ## `find_payout_amount` -/

/-- The `Payout` dataclass. -/
structure Payout where
  file : List Char
  amount : ℚ
  raw_amount : List Char
  matched_line : List Char
deriving DecidableEq, Repr

/-- One entry of the locator's internal candidate list:
`(score, amount_float, raw_amount, matched_line)`. -/
structure Candidate where
  score : Int
  amount : ℚ
  raw : List Char
  line : List Char
deriving DecidableEq, Repr

/-- Helper `add_candidate` from `find_payout_amount`: the candidates (none or
one) appended for a given score and line. -/
def add_candidate (score : Int) (ln : List Char) : List Candidate :=
  match searchAmount ln with
  | none => []
  | some raw => [⟨score, de_amount_to_float raw, raw, ln⟩]

def kwZahlungen : List Char := "zahlungen".toList

def kwUebAscii : List Char := "ueberweisung".toList

def kwUebUmlaut : List Char := "überweisung".toList

def kwEur : List Char := "eur".toList

def euroSign : List Char := "€".toList

/-- Candidates contributed by window position `j` of one tier-1
("Zahlungen" block) scan. -/
def tier1Hit (lines norm : List (List Char)) (j : ℕ) : List Candidate :=
  let n2 := norm.getD j []
  let ln2 := lines.getD j []
  if containsTok kwUebAscii n2 || containsTok kwUebUmlaut (pyLower ln2) then
    let score : Int := 100 + (if containsTok kwEur n2 || containsTok euroSign ln2 then 20 else 0)
    add_candidate score ln2 ++
      (if j + 1 < lines.length then add_candidate (score - 5) (lines.getD (j + 1) []) else [])
  else []

/-- Tier 1: for every "zahlungen" line, scan the window `[i, min(i+20, n))`. -/
def tier1 (lines norm : List (List Char)) : List Candidate :=
  (List.range lines.length).flatMap (fun i =>
    if containsTok kwZahlungen (norm.getD i []) then
      (List.range' i (min (i + 20) lines.length - i)).flatMap (tier1Hit lines norm)
    else [])

def payout_words : List (List Char) :=
  ["auszahlungsbetrag".toList, "netto".toList, "auszahlung".toList, "ausgezahlt".toList]

/-- Candidates contributed by line `i` of the tier-2 (explicit payout
words) scan. -/
def tier2Hit (lines norm : List (List Char)) (i : ℕ) : List Candidate :=
  let nln := norm.getD i []
  let ln := lines.getD i []
  if payout_words.any (fun w => containsTok w nln) then
    let score : Int := 80 + (if containsTok kwEur nln || containsTok euroSign ln then 10 else 0)
    add_candidate score ln ++
      (if i + 1 < lines.length then add_candidate (score - 5) (lines.getD (i + 1) []) else [])
  else []

/-- Tier 2: explicit payout words anywhere. -/
def tier2 (lines norm : List (List Char)) : List Candidate :=
  (List.range lines.length).flatMap (tier2Hit lines norm)

/-- Candidates contributed by line `i` of the tier-3 (bare "Überweisung")
scan. -/
def tier3Hit (lines norm : List (List Char)) (i : ℕ) : List Candidate :=
  let nln := norm.getD i []
  let ln := lines.getD i []
  if containsTok kwUebAscii nln || containsTok kwUebUmlaut (pyLower ln) then
    let score : Int := 40 + (if containsTok kwEur nln || containsTok euroSign ln then 10 else 0)
    add_candidate score ln
  else []

/-- Tier 3: any "Überweisung" line anywhere, no next-line fallback. -/
def tier3 (lines norm : List (List Char)) : List Candidate :=
  (List.range lines.length).flatMap (tier3Hit lines norm)

/-- The non-empty stripped lines of the input text. -/
def linesOf (text : List Char) : List (List Char) :=
  ((pySplitlines text).map pyStrip).filter (fun l => !l.isEmpty)

/-- The full candidate list one `find_payout_amount` call accumulates, in
the order the source appends them. -/
def candidatesOf (text : List Char) : List Candidate :=
  let lines := linesOf text
  let norm := lines.map normalize
  tier1 lines norm ++ tier2 lines norm ++ tier3 lines norm

/-- Strictly-less under the sort key `(score, amount)`. -/
def candLt (c d : Candidate) : Bool :=
  c.score < d.score || (c.score = d.score && c.amount < d.amount)

/-- Python `candidates.sort(key, reverse=True)` followed by taking entry 0: the
first candidate (stable order) whose `(score, amount)` key is maximal. -/
def pickBest : Candidate → List Candidate → Candidate
  | c, [] => c
  | c, d :: rest => pickBest (if candLt c d then d else c) rest

/-- Function `find_payout_amount` from `pdfextracter.py`. -/
def find_payout_amount (text : List Char) : Option Payout :=
  match candidatesOf text with
  | [] => none
  | c :: rest =>
    let best := pickBest c rest
    some ⟨[], best.amount, best.raw, best.line⟩

/-! ## Latest-payslip selection -/

/-- Pattern `YEAR_MONTH_RE = (20\d{2})(0[1-9]|1[0-2])` tried at the head of the
input, returning the year-month as the number `yyyy * 100 + mm`. -/
def monthOk (m1 m2 : Char) : Bool :=
  (m1 = '0' && '1' ≤ m2 && m2 ≤ '9') || (m1 = '1' && '0' ≤ m2 && m2 ≤ '2')

def ymAt : List Char → Option ℕ
  | '2' :: '0' :: a :: b :: m1 :: m2 :: _ =>
    if a.isDigit && b.isDigit && monthOk m1 m2 then
      some (100 * (2000 + 10 * digitVal a + digitVal b) + (10 * digitVal m1 + digitVal m2))
    else none
  | _ => none

/-- Search of `YEAR_MONTH_RE`: leftmost year-month token. -/
def searchYearMonth : List Char → Option ℕ
  | [] => none
  | c :: rest =>
    match ymAt (c :: rest) with
    | some v => some v
    | none => searchYearMonth rest

/-- Function `extract_yyyymm_from_name`: the `datetime` result is represented by
its `yyyy * 100 + mm` number (the `strptime` order agrees with numeric
order, and `strptime` cannot fail on a token the pattern matched). -/
def extract_yyyymm_from_name (name : List Char) : Option ℕ := searchYearMonth name

/-- One entry of the folder listing handed to `pick_latest_pdf`. -/
structure DirEntry where
  name : List Char
  isRegularFile : Bool
deriving DecidableEq, Repr

/-- Python `pathlib.PurePath.suffix` of a file name. -/
def pathSuffixOf (name : List Char) : List Char :=
  let tailLen := (name.reverse.takeWhile (fun c => c ≠ '.')).length
  if tailLen = name.length then []
  else
    let i := name.length - tailLen - 1
    if 0 < i ∧ i < name.length - 1 then name.drop i else []

def dotPdf : List Char := ".pdf".toList

def default_allowed : List (List Char) :=
  ["entgeltnachweis_".toList, "entgeltabrechnung_".toList]

/-- The loop body of `pick_latest_pdf`: process one directory entry,
keeping the best `(year-month, entry)` seen so far (strictly-greater
wins, so the first entry of a tie is kept, as in the source). -/
def pickStep (allowed : List (List Char)) (best : Option (ℕ × DirEntry)) (p : DirEntry) :
    Option (ℕ × DirEntry) :=
  if !p.isRegularFile || pyLower (pathSuffixOf p.name) ≠ dotPdf then best
  else if !allowed.isEmpty && !allowed.any (fun pre => listStartsWith pre (pyLower p.name)) then best
  else
    match extract_yyyymm_from_name p.name with
    | none => best
    | some dt =>
      match best with
      | none => some (dt, p)
      | some (bdt, bp) => if bdt < dt then some (dt, p) else some (bdt, bp)

/-- The directory scan of `pick_latest_pdf` over an explicit listing. -/
def pick_latest_entries (allowed : List (List Char)) (entries : List DirEntry) :
    Option DirEntry :=
  (entries.foldl (pickStep allowed) none).map (fun b => b.2)

/-- Function `pick_latest_pdf`: the `folder` argument models the filesystem —
`none` when the folder does not exist or is not a directory, in which
case the source raises `FileNotFoundError`, modelled as `Except.error`. -/
def pick_latest_pdf (folder : Option (List DirEntry)) (allowed : List (List Char)) :
    Except (List Char) (Option DirEntry) :=
  match folder with
  | none => Except.error "Folder not found or not a directory".toList
  | some entries => Except.ok (pick_latest_entries allowed entries)

/-- The three per-file filters of `pick_latest_pdf`, as one predicate:
regular file, `.pdf` extension (case-insensitive), allowed prefix, and a
year-month token in the name. -/
def entryEligible (allowed : List (List Char)) (p : DirEntry) : Bool :=
  p.isRegularFile && pyLower (pathSuffixOf p.name) = dotPdf &&
    (allowed.isEmpty || allowed.any (fun pre => listStartsWith pre (pyLower p.name))) &&
    (extract_yyyymm_from_name p.name).isSome

/-! ## Facts about `Char.toLower` and `pyLowerChar` -/

lemma char_ne_of_toNat_ne {c d : Char} (h : c.toNat ≠ d.toNat) : c ≠ d :=
  fun he => h (by rw [he])

lemma toLower_toNat_of_upper (c : Char) (h : 65 ≤ c.toNat) (h2 : c.toNat ≤ 90) :
    c.toLower.toNat = c.toNat + 32 := by
  simp only [Char.toLower]
  rw [if_pos (by omega)]
  have hv : (c.toNat + 32).isValidChar := Or.inl (by omega)
  rw [Char.ofNat, dif_pos hv]
  simp [Char.ofNatAux, Char.toNat, UInt32.toNat, BitVec.toNat_ofNatLt]

lemma toLower_eq_self (c : Char) (h : ¬(65 ≤ c.toNat ∧ c.toNat ≤ 90)) :
    c.toLower = c := by
  simp only [Char.toLower]
  rw [if_neg (by omega)]

lemma toLower_idem (c : Char) : c.toLower.toLower = c.toLower := by
  by_cases hu : 65 ≤ c.toNat ∧ c.toNat ≤ 90
  · have ht := toLower_toNat_of_upper c hu.1 hu.2
    exact toLower_eq_self _ (by omega)
  · rw [toLower_eq_self c hu, toLower_eq_self c hu]

/-- A character outside the lowercase ASCII range is only reached by
`Char.toLower` from itself. -/
lemma eq_of_toLower_eq (c d : Char) (hd : ¬(97 ≤ d.toNat ∧ d.toNat ≤ 122))
    (h : c.toLower = d) : c = d := by
  by_cases hu : 65 ≤ c.toNat ∧ c.toNat ≤ 90
  · exfalso
    have ht := toLower_toNat_of_upper c hu.1 hu.2
    rw [h] at ht
    omega
  · rw [toLower_eq_self c hu] at h
    exact h

lemma pyLowerChar_eq_toLower (c : Char) (h1 : c ≠ 'Ü') (h2 : c ≠ 'Ö')
    (h3 : c ≠ 'Ä') (h4 : c ≠ 'ẞ') : pyLowerChar c = c.toLower := by
  simp [pyLowerChar, h1, h2, h3, h4]

lemma pyLowerChar_idem (c : Char) : pyLowerChar (pyLowerChar c) = pyLowerChar c := by
  by_cases h1 : c = 'Ü'
  · subst h1; decide
  by_cases h2 : c = 'Ö'
  · subst h2; decide
  by_cases h3 : c = 'Ä'
  · subst h3; decide
  by_cases h4 : c = 'ẞ'
  · subst h4; decide
  rw [pyLowerChar_eq_toLower c h1 h2 h3 h4]
  rw [pyLowerChar_eq_toLower c.toLower
    (fun he => h1 (eq_of_toLower_eq c 'Ü' (by decide) he))
    (fun he => h2 (eq_of_toLower_eq c 'Ö' (by decide) he))
    (fun he => h3 (eq_of_toLower_eq c 'Ä' (by decide) he))
    (fun he => h4 (eq_of_toLower_eq c 'ẞ' (by decide) he))]
  exact toLower_idem c

/-! ## Idempotence of `normalize` -/

lemma normalize_append (s t : List Char) :
    normalize (s ++ t) = normalize s ++ normalize t := by
  simp [normalize, pyLower, replaceChar]

lemma normalize_cons (c : Char) (s : List Char) :
    normalize (c :: s) = normalize [c] ++ normalize s := by
  rw [show (c :: s) = [c] ++ s from rfl, normalize_append]

lemma normalize_single (c : Char) : normalize [c] =
    (if pyLowerChar c = 'ü' then ['u', 'e']
     else if pyLowerChar c = 'ö' then ['o', 'e']
     else if pyLowerChar c = 'ä' then ['a', 'e']
     else if pyLowerChar c = 'ß' then ['s', 's']
     else [pyLowerChar c]) := by
  simp only [normalize, pyLower, List.map_cons, List.map_nil, replaceChar,
    List.flatMap_cons, List.flatMap_nil, List.append_nil]
  by_cases h1 : pyLowerChar c = 'ü'
  · simp [h1]
  by_cases h2 : pyLowerChar c = 'ö'
  · simp [h1, h2]
  by_cases h3 : pyLowerChar c = 'ä'
  · simp [h1, h2, h3]
  by_cases h4 : pyLowerChar c = 'ß'
  · simp [h1, h2, h3, h4]
  simp [h1, h2, h3, h4]

lemma normalize_single_idem (c : Char) :
    normalize (normalize [c]) = normalize [c] := by
  rw [normalize_single c]
  by_cases h1 : pyLowerChar c = 'ü'
  · simp only [if_pos h1]; decide
  by_cases h2 : pyLowerChar c = 'ö'
  · simp only [if_neg h1, if_pos h2]; decide
  by_cases h3 : pyLowerChar c = 'ä'
  · simp only [if_neg h1, if_neg h2, if_pos h3]; decide
  by_cases h4 : pyLowerChar c = 'ß'
  · simp only [if_neg h1, if_neg h2, if_neg h3, if_pos h4]; decide
  simp only [if_neg h1, if_neg h2, if_neg h3, if_neg h4]
  rw [normalize_single (pyLowerChar c), pyLowerChar_idem c]
  simp [h1, h2, h3, h4]

/-- C7: `normalize` is idempotent: applying it to an already-normalized
string returns that string unchanged (`normalize` lowercases and rewrites
ü→ue, ö→oe, ä→ae, ß→ss). -/
theorem normalize_idempotent (s : List Char) :
    normalize (normalize s) = normalize s := by
  induction s with
  | nil => rfl
  | cons c s ih =>
    rw [normalize_cons c s, normalize_append, normalize_single_idem, ih]

/-! ## What `searchAmount` returns: a grammar-conforming substring -/

lemma matchComma_spec {cs m : List Char} (h : matchComma cs = some m) :
    m <+: cs ∧ isCommaTail m = true := by
  unfold matchComma at h
  split at h
  · next d1 d2 rest =>
    split at h
    · next hd =>
      cases h
      exact ⟨⟨rest, rfl⟩, by simp [isCommaTail, hd]⟩
    · cases h
  · cases h

lemma isGroupsTail_of_comma {m : List Char} (h : isCommaTail m = true) :
    isGroupsTail m = true := by
  unfold isCommaTail at h
  split at h
  · next d1 d2 =>
    simp [isGroupsTail, isCommaTail, h]
  · simp at h

lemma matchGroupsComma_spec {cs m : List Char} (h : matchGroupsComma cs = some m) :
    m <+: cs ∧ isGroupsTail m = true := by
  induction cs using matchGroupsComma.induct generalizing m with
  | case1 a b c rest hd m' hm' ih =>
    rw [matchGroupsComma, if_pos hd, hm'] at h
    cases h
    obtain ⟨hpre, htok⟩ := ih hm'
    refine ⟨List.cons_prefix_cons.mpr ⟨rfl, List.cons_prefix_cons.mpr ⟨rfl,
      List.cons_prefix_cons.mpr ⟨rfl, List.cons_prefix_cons.mpr ⟨rfl, hpre⟩⟩⟩⟩, ?_⟩
    simp only [isGroupsTail, htok]
    simp at hd ⊢
    exact hd
  | case2 a b c rest hd hm' =>
    rw [matchGroupsComma, if_pos hd, hm'] at h
    obtain ⟨hpre, htok⟩ := matchComma_spec h
    exact ⟨hpre, isGroupsTail_of_comma htok⟩
  | case3 a b c rest hd =>
    rw [matchGroupsComma, if_neg hd] at h
    obtain ⟨hpre, htok⟩ := matchComma_spec h
    exact ⟨hpre, isGroupsTail_of_comma htok⟩
  | case4 cs hcs =>
    rw [matchGroupsComma] at h
    · obtain ⟨hpre, htok⟩ := matchComma_spec h
      exact ⟨hpre, isGroupsTail_of_comma htok⟩
    · exact hcs

lemma isDigitsTail_of_groups {m : List Char} (h : isGroupsTail m = true) :
    isDigitsTail m = true := by
  cases m with
  | nil => simp [isGroupsTail, isCommaTail] at h
  | cons x xs => simp [isDigitsTail, h]

lemma matchDigitsGroups_spec {cs m : List Char} (h : matchDigitsGroups cs = some m) :
    m <+: cs ∧ isDigitsTail m = true := by
  induction cs using matchDigitsGroups.induct generalizing m with
  | case1 =>
    rw [matchDigitsGroups] at h
    obtain ⟨hpre, htok⟩ := matchGroupsComma_spec h
    exact ⟨hpre, isDigitsTail_of_groups htok⟩
  | case2 c rest hd m' hm' ih =>
    rw [matchDigitsGroups, if_pos hd, hm'] at h
    cases h
    obtain ⟨hpre, htok⟩ := ih hm'
    exact ⟨List.cons_prefix_cons.mpr ⟨rfl, hpre⟩, by simp [isDigitsTail, hd, htok]⟩
  | case3 c rest hd hm' =>
    rw [matchDigitsGroups, if_pos hd, hm'] at h
    obtain ⟨hpre, htok⟩ := matchGroupsComma_spec h
    exact ⟨hpre, isDigitsTail_of_groups htok⟩
  | case4 c rest hd =>
    rw [matchDigitsGroups, if_neg hd] at h
    obtain ⟨hpre, htok⟩ := matchGroupsComma_spec h
    exact ⟨hpre, isDigitsTail_of_groups htok⟩

lemma matchAmountFrom_spec {cs m : List Char} (h : matchAmountFrom cs = some m) :
    m <+: cs ∧ isAmountToken m = true := by
  cases cs with
  | nil => cases h
  | cons c rest =>
    rw [matchAmountFrom] at h
    split at h
    · next hd =>
      obtain ⟨m', hm', rfl⟩ := Option.map_eq_some'.mp h
      obtain ⟨hpre, htok⟩ := matchDigitsGroups_spec hm'
      exact ⟨List.cons_prefix_cons.mpr ⟨rfl, hpre⟩, by simp [isAmountToken, hd, htok]⟩
    · cases h

lemma searchAmount_spec {cs m : List Char} (h : searchAmount cs = some m) :
    m <:+: cs ∧ isAmountToken m = true := by
  induction cs with
  | nil => cases h
  | cons c rest ih =>
    rw [searchAmount] at h
    split at h
    · next m' hm' =>
      cases h
      obtain ⟨hpre, htok⟩ := matchAmountFrom_spec hm'
      exact ⟨hpre.isInfix, htok⟩
    · obtain ⟨hinf, htok⟩ := ih h
      exact ⟨List.infix_cons hinf, htok⟩

lemma floatOfDecimalChars_nonneg (cs : List Char) : 0 ≤ floatOfDecimalChars cs := by
  unfold floatOfDecimalChars
  split
  · exact Nat.cast_nonneg _
  · positivity

lemma de_amount_nonneg (s : List Char) : 0 ≤ de_amount_to_float s :=
  floatOfDecimalChars_nonneg _

/-! ## Soundness of the candidate lists -/

lemma mem_add_candidate {c : Candidate} {sc : Int} {ln : List Char}
    (h : c ∈ add_candidate sc ln) :
    searchAmount ln = some c.raw ∧ c.amount = de_amount_to_float c.raw ∧
      c.line = ln ∧ c.score = sc := by
  unfold add_candidate at h
  split at h
  · cases h
  · next raw hraw =>
    rw [List.mem_singleton] at h
    subst h
    exact ⟨hraw, rfl, rfl, rfl⟩

/-- Shape of every tier-1 candidate: an amount token on its own line, the
line taken from the input at a valid index. -/
lemma tier1_sound {lines norm : List (List Char)} {c : Candidate}
    (h : c ∈ tier1 lines norm) :
    searchAmount c.line = some c.raw ∧ c.amount = de_amount_to_float c.raw ∧
      ∃ k, k < lines.length ∧ c.line = lines.getD k [] := by
  unfold tier1 at h
  rw [List.mem_flatMap] at h
  obtain ⟨i, hi, h⟩ := h
  rw [List.mem_range] at hi
  split at h
  · rw [List.mem_flatMap] at h
    obtain ⟨j, hj, h⟩ := h
    rw [List.mem_range'] at hj
    obtain ⟨k, hk, rfl⟩ := hj
    have hjlt : i + 1 * k < lines.length := by omega
    simp only [tier1Hit] at h
    split at h
    · rw [List.mem_append] at h
      rcases h with h | h
      · obtain ⟨hs, ha, hl, _⟩ := mem_add_candidate h
        exact ⟨hl ▸ hs, ha, i + 1 * k, hjlt, hl⟩
      · split at h
        · next hnext =>
          obtain ⟨hs, ha, hl, _⟩ := mem_add_candidate h
          exact ⟨hl ▸ hs, ha, i + 1 * k + 1, hnext, hl⟩
        · simp at h
    · simp at h
  · simp at h

/-- Shape of every tier-2 candidate. -/
lemma tier2_sound {lines norm : List (List Char)} {c : Candidate}
    (h : c ∈ tier2 lines norm) :
    searchAmount c.line = some c.raw ∧ c.amount = de_amount_to_float c.raw ∧
      ∃ k, k < lines.length ∧ c.line = lines.getD k [] := by
  unfold tier2 at h
  rw [List.mem_flatMap] at h
  obtain ⟨i, hi, h⟩ := h
  rw [List.mem_range] at hi
  simp only [tier2Hit] at h
  split at h
  · rw [List.mem_append] at h
    rcases h with h | h
    · obtain ⟨hs, ha, hl, _⟩ := mem_add_candidate h
      exact ⟨hl ▸ hs, ha, i, hi, hl⟩
    · split at h
      · next hnext =>
        obtain ⟨hs, ha, hl, _⟩ := mem_add_candidate h
        exact ⟨hl ▸ hs, ha, i + 1, hnext, hl⟩
      · simp at h
  · simp at h

/-- Shape of every tier-3 candidate. -/
lemma tier3_sound {lines norm : List (List Char)} {c : Candidate}
    (h : c ∈ tier3 lines norm) :
    searchAmount c.line = some c.raw ∧ c.amount = de_amount_to_float c.raw ∧
      ∃ k, k < lines.length ∧ c.line = lines.getD k [] := by
  unfold tier3 at h
  rw [List.mem_flatMap] at h
  obtain ⟨i, hi, h⟩ := h
  rw [List.mem_range] at hi
  simp only [tier3Hit] at h
  split at h
  · obtain ⟨hs, ha, hl, _⟩ := mem_add_candidate h
    exact ⟨hl ▸ hs, ha, i, hi, hl⟩
  · simp at h

/-- Every accumulated candidate carries an amount token found on its own
line, and its line is one of the input's non-empty stripped lines. -/
lemma candidates_sound {text : List Char} {c : Candidate}
    (h : c ∈ candidatesOf text) :
    searchAmount c.line = some c.raw ∧ c.amount = de_amount_to_float c.raw ∧
      c.line ∈ linesOf text := by
  unfold candidatesOf at h
  have hline : ∀ k, k < (linesOf text).length →
      (linesOf text).getD k [] ∈ linesOf text := by
    intro k hk
    rw [List.getD_eq_getElem _ _ hk]
    exact List.getElem_mem hk
  rw [List.mem_append, List.mem_append] at h
  rcases h with (h | h) | h
  · obtain ⟨hs, ha, k, hk, hl⟩ := tier1_sound h
    exact ⟨hs, ha, hl ▸ hline k hk⟩
  · obtain ⟨hs, ha, k, hk, hl⟩ := tier2_sound h
    exact ⟨hs, ha, hl ▸ hline k hk⟩
  · obtain ⟨hs, ha, k, hk, hl⟩ := tier3_sound h
    exact ⟨hs, ha, hl ▸ hline k hk⟩

/-! ## The winner is the first lexicographically-maximal candidate -/

/-- The (non-strict) order on the sort key `(score, amount)`. -/
def candKeyLe (c d : Candidate) : Prop :=
  c.score < d.score ∨ (c.score = d.score ∧ c.amount ≤ d.amount)

lemma candKeyLe_refl (c : Candidate) : candKeyLe c c := Or.inr ⟨rfl, le_refl _⟩

lemma candKeyLe_trans {a b c : Candidate} (h1 : candKeyLe a b) (h2 : candKeyLe b c) :
    candKeyLe a c := by
  rcases h1 with h1 | ⟨h1, h1'⟩ <;> rcases h2 with h2 | ⟨h2, h2'⟩
  · exact Or.inl (h1.trans h2)
  · exact Or.inl (h2 ▸ h1)
  · exact Or.inl (h1 ▸ h2)
  · exact Or.inr ⟨h1.trans h2, h1'.trans h2'⟩

lemma candLt_key {c d : Candidate} (h : candLt c d = true) : candKeyLe c d := by
  unfold candLt at h
  simp only [Bool.or_eq_true, Bool.and_eq_true, decide_eq_true_eq] at h
  rcases h with h | ⟨h1, h2⟩
  · exact Or.inl h
  · exact Or.inr ⟨h1, le_of_lt h2⟩

lemma not_candLt_key {c d : Candidate} (h : candLt c d = false) : candKeyLe d c := by
  have h' : ¬(c.score < d.score ∨ (c.score = d.score ∧ c.amount < d.amount)) := by
    intro hcon
    rcases hcon with h1 | ⟨h1, h2⟩
    · simp [candLt, h1] at h
    · simp [candLt, h1, h2] at h
  push_neg at h'
  obtain ⟨hs, hrest⟩ := h'
  rcases lt_or_eq_of_le hs with hlt | heq
  · exact Or.inl hlt
  · exact Or.inr ⟨heq, hrest heq.symm⟩

lemma pickBest_mem : ∀ (l : List Candidate) (c : Candidate), pickBest c l ∈ c :: l := by
  intro l
  induction l with
  | nil => intro c; simp [pickBest]
  | cons d rest ih =>
    intro c
    have hmem := ih (if candLt c d then d else c)
    rw [show pickBest c (d :: rest) = pickBest (if candLt c d then d else c) rest from rfl]
    rcases List.mem_cons.mp hmem with h | h
    · rw [h]
      split <;> simp
    · exact List.mem_cons_of_mem _ (List.mem_cons_of_mem _ h)

lemma pickBest_le : ∀ (l : List Candidate) (c : Candidate),
    ∀ e ∈ c :: l, candKeyLe e (pickBest c l) := by
  intro l
  induction l with
  | nil =>
    intro c e he
    rw [List.mem_singleton] at he
    rw [he]
    exact candKeyLe_refl _
  | cons d rest ih =>
    intro c e he
    rw [show pickBest c (d :: rest) = pickBest (if candLt c d then d else c) rest from rfl]
    have hc : candKeyLe c (if candLt c d then d else c) := by
      cases hcd : candLt c d with
      | true => simpa [hcd] using candLt_key hcd
      | false => simp [hcd, candKeyLe_refl]
    have hd : candKeyLe d (if candLt c d then d else c) := by
      cases hcd : candLt c d with
      | true => simp [hcd, candKeyLe_refl]
      | false => simpa [hcd] using not_candLt_key hcd
    have htop : candKeyLe (if candLt c d then d else c)
        (pickBest (if candLt c d then d else c) rest) :=
      ih _ _ (List.mem_cons_self _ _)
    rcases List.mem_cons.mp he with rfl | he
    · exact candKeyLe_trans hc htop
    rcases List.mem_cons.mp he with rfl | he
    · exact candKeyLe_trans hd htop
    · exact ih _ _ (List.mem_cons_of_mem _ he)

/-! ## Claim theorems for the locator -/

/-- C1: `find_payout_amount` returns `none` exactly when no candidate was
generated; otherwise it returns a `Payout` built from a candidate that is
maximal in the lexicographic order on `(score, amount)` — score primary,
higher amount winning among equal scores — with the `file` field empty. -/
theorem find_payout_extremal (text : List Char) :
    (find_payout_amount text = none ↔ candidatesOf text = []) ∧
    (∀ p, find_payout_amount text = some p →
      p.file = [] ∧
      ∃ c ∈ candidatesOf text,
        p = ⟨[], c.amount, c.raw, c.line⟩ ∧
        ∀ d ∈ candidatesOf text, candKeyLe d c) := by
  simp only [find_payout_amount]
  rcases hc : candidatesOf text with _ | ⟨c, rest⟩
  · simp
  · constructor
    · simp
    · intro p hp
      cases hp
      exact ⟨rfl, pickBest c rest, pickBest_mem rest c, rfl,
        fun d hd => pickBest_le rest c d hd⟩

/-- Witness for C1 at the one-line text "Überweisung 1,00". -/
theorem find_payout_extremal_witness :
    (⟨[], de_amount_to_float "1,00".toList, "1,00".toList,
        "Überweisung 1,00".toList⟩ : Payout).file = [] ∧
    ∃ c ∈ candidatesOf "Überweisung 1,00".toList,
      (⟨[], de_amount_to_float "1,00".toList, "1,00".toList,
          "Überweisung 1,00".toList⟩ : Payout) =
        ⟨[], c.amount, c.raw, c.line⟩ ∧
      ∀ d ∈ candidatesOf "Überweisung 1,00".toList, candKeyLe d c :=
  (find_payout_extremal "Überweisung 1,00".toList).2
    ⟨[], de_amount_to_float "1,00".toList, "1,00".toList,
      "Überweisung 1,00".toList⟩ rfl

/-- C3: tier ordering end to end — the tier-1 "Zahlungen"-block candidate
"überweisung 1.200,00 EUR" beats the bare tier-3 "Überweisung 50,00". -/
theorem tier_ordering_example :
    (find_payout_amount
        "Zahlungen\nüberweisung 1.200,00 EUR\nÜberweisung 50,00".toList).map
      Payout.amount = some 1200 := by
  have hv : de_amount_to_float "1.200,00".toList = 1200 := by
    show ((1200 : ℕ) : ℚ) + ((0 : ℕ) : ℚ) / (10 : ℚ) ^ (2 : ℕ) = 1200
    norm_num
  have h : find_payout_amount
      "Zahlungen\nüberweisung 1.200,00 EUR\nÜberweisung 50,00".toList =
      some ⟨[], de_amount_to_float "1.200,00".toList, "1.200,00".toList,
        "überweisung 1.200,00 EUR".toList⟩ := rfl
  rw [h]
  show some (de_amount_to_float "1.200,00".toList) = some 1200
  exact congrArg some hv

/-- C4: conversion on the spec's vectors, and rejection of a plain
integer and of a one-decimal-digit amount. -/
theorem amount_vectors :
    de_amount_to_float "1.024,09".toList = 1024.09 ∧
    de_amount_to_float "12,50".toList = 12.50 ∧
    de_amount_to_float "0,00".toList = 0.0 ∧
    searchAmount "1024".toList = none ∧
    searchAmount "1024,9".toList = none := by
  refine ⟨?_, ?_, ?_, by decide, by decide⟩
  · show ((1024 : ℕ) : ℚ) + ((9 : ℕ) : ℚ) / (10 : ℚ) ^ (2 : ℕ) = 1024.09
    norm_num
  · show ((12 : ℕ) : ℚ) + ((50 : ℕ) : ℚ) / (10 : ℚ) ^ (2 : ℕ) = 12.50
    norm_num
  · show ((0 : ℕ) : ℚ) + ((0 : ℕ) : ℚ) / (10 : ℚ) ^ (2 : ℕ) = 0.0
    norm_num

/-- C5 is false on the code: `AMOUNT_RE.search` on "12.3,45" does not
reject the line — it matches the substring "3,45". -/
theorem strict_grouping_cex :
    searchAmount "12.3,45".toList ≠ none ∧
    searchAmount "12.3,45".toList = some "3,45".toList := by decide

/-- C5 (amended): on "12.3,45" no match is anchored at the start (and the
whole line is not a valid token), but the search still returns the later
substring "3,45"; the line is not rejected as a whole. -/
theorem strict_grouping_amended :
    searchAmount "12.3,45".toList = some "3,45".toList ∧
    matchAmountFrom "12.3,45".toList = none ∧
    isAmountToken "12.3,45".toList = false := by decide

/-- C6: next-line fallback — "Überweisung" with no amount followed by
"1.024,09 EUR" yields exactly one candidate, a tier-1 candidate for the
following line scored `100 - 5`, where `100` is the score a same-line
match on the keyword line would have received; the locator returns it. -/
theorem next_line_fallback :
    candidatesOf "Zahlungen\nÜberweisung\n1.024,09 EUR".toList =
      [⟨100 - 5, de_amount_to_float "1.024,09".toList, "1.024,09".toList,
        "1.024,09 EUR".toList⟩] ∧
    (100 : Int) = 100 + (if containsTok kwEur (normalize "Überweisung".toList)
        || containsTok euroSign "Überweisung".toList then 20 else 0) ∧
    find_payout_amount "Zahlungen\nÜberweisung\n1.024,09 EUR".toList =
      some ⟨[], de_amount_to_float "1.024,09".toList, "1.024,09".toList,
        "1.024,09 EUR".toList⟩ ∧
    de_amount_to_float "1.024,09".toList = 1024.09 := by
  refine ⟨rfl, by decide, rfl, ?_⟩
  show ((1024 : ℕ) : ℚ) + ((9 : ℕ) : ℚ) / (10 : ℚ) ^ (2 : ℕ) = 1024.09
  norm_num

/-- C10: every returned `Payout` is internally consistent: `raw_amount`
conforms to the amount grammar and is a substring of `matched_line`, the
`amount` is its parsed value and non-negative, and `matched_line` is one
of the non-empty stripped lines of the input text. -/
theorem payout_invariants (text : List Char) (p : Payout)
    (hp : find_payout_amount text = some p) :
    isAmountToken p.raw_amount = true ∧
    p.raw_amount <:+: p.matched_line ∧
    p.amount = de_amount_to_float p.raw_amount ∧
    0 ≤ p.amount ∧
    p.matched_line ∈ linesOf text := by
  simp only [find_payout_amount] at hp
  rcases hc : candidatesOf text with _ | ⟨c, rest⟩ <;> rw [hc] at hp
  · cases hp
  · cases hp
    have hmem : pickBest c rest ∈ candidatesOf text := by
      rw [hc]
      exact pickBest_mem rest c
    obtain ⟨hs, ha, hl⟩ := candidates_sound hmem
    obtain ⟨hinf, htok⟩ := searchAmount_spec hs
    exact ⟨htok, hinf, ha, ha ▸ de_amount_nonneg _, hl⟩

/-- Witness for C10 at the one-line text "Netto 12,34". -/
theorem payout_invariants_witness :
    isAmountToken "12,34".toList = true ∧
    "12,34".toList <:+: "Netto 12,34".toList ∧
    de_amount_to_float "12,34".toList = de_amount_to_float "12,34".toList ∧
    (0 : ℚ) ≤ de_amount_to_float "12,34".toList ∧
    "Netto 12,34".toList ∈ linesOf "Netto 12,34".toList :=
  payout_invariants "Netto 12,34".toList
    ⟨[], de_amount_to_float "12,34".toList, "12,34".toList,
      "Netto 12,34".toList⟩ rfl

/-! ## The folder scan of `pick_latest_pdf` -/

/-- The year-month key of an entry (0 when the name has no token). -/
def ymKey (p : DirEntry) : ℕ := (extract_yyyymm_from_name p.name).getD 0

/-- An ineligible entry leaves the running best untouched. -/
lemma pickStep_skip {allowed : List (List Char)} {best : Option (ℕ × DirEntry)}
    {p : DirEntry} (h : entryEligible allowed p = false) :
    pickStep allowed best p = best := by
  unfold pickStep entryEligible at *
  rcases hext : extract_yyyymm_from_name p.name with _ | dt <;>
    rw [hext] at h <;>
    by_cases hfile : p.isRegularFile = true <;>
    by_cases hsuf : pyLower (pathSuffixOf p.name) = dotPdf <;>
    by_cases hemp : allowed.isEmpty = true <;>
    by_cases hany : (allowed.any fun pre => listStartsWith pre (pyLower p.name)) = true <;>
    simp_all

/-- Processing an eligible entry always leaves a running best whose key
dominates both the entry's key and the previous best's key. -/
lemma pickStep_take {allowed : List (List Char)} (acc : Option (ℕ × DirEntry))
    (p : DirEntry) (dt : ℕ)
    (helig : entryEligible allowed p = true)
    (hext : extract_yyyymm_from_name p.name = some dt) :
    ∃ k0 r0, pickStep allowed acc p = some (k0, r0) ∧ dt ≤ k0 ∧
      ((k0 = dt ∧ r0 = p) ∨ acc = some (k0, r0)) ∧
      (∀ ka ea, acc = some (ka, ea) → ka ≤ k0) := by
  have hcomp := helig
  unfold entryEligible at hcomp
  simp only [Bool.and_eq_true, decide_eq_true_eq, Bool.or_eq_true] at hcomp
  obtain ⟨⟨⟨hfile, hsuf⟩, hpre⟩, _⟩ := hcomp
  unfold pickStep
  rw [if_neg (by simp [hfile, hsuf]), if_neg (by
    rcases hpre with hp | hp <;> simp [hp]), hext]
  cases acc with
  | none =>
    exact ⟨dt, p, rfl, le_refl _, Or.inl ⟨rfl, rfl⟩, by intro ka ea hx; cases hx⟩
  | some b =>
    obtain ⟨bk, be⟩ := b
    by_cases hlt : bk < dt
    · refine ⟨dt, p, ?_, le_refl _, Or.inl ⟨rfl, rfl⟩, ?_⟩
      · show (if bk < dt then some (dt, p) else some (bk, be)) = some (dt, p)
        rw [if_pos hlt]
      · intro ka ea hx
        simp only [Option.some.injEq, Prod.mk.injEq] at hx
        omega
    · refine ⟨bk, be, ?_, by omega, Or.inr rfl, ?_⟩
      · show (if bk < dt then some (dt, p) else some (bk, be)) = some (bk, be)
        rw [if_neg hlt]
      · intro ka ea hx
        simp only [Option.some.injEq, Prod.mk.injEq] at hx
        omega

/-- Invariant of the directory scan: the final best-so-far pair holds the
maximal key among eligible entries (ties keep the earlier entry). -/
lemma pick_fold_spec (allowed : List (List Char)) :
    ∀ (entries : List DirEntry) (acc : Option (ℕ × DirEntry)),
      (∀ k e, acc = some (k, e) → extract_yyyymm_from_name e.name = some k) →
      ((entries.foldl (pickStep allowed) acc = none ↔
          (acc = none ∧ ∀ e ∈ entries, entryEligible allowed e = false)) ∧
       (∀ k r, entries.foldl (pickStep allowed) acc = some (k, r) →
          extract_yyyymm_from_name r.name = some k ∧
          (acc = some (k, r) ∨ (r ∈ entries ∧ entryEligible allowed r = true)) ∧
          (∀ e ∈ entries, entryEligible allowed e = true → ymKey e ≤ k) ∧
          (∀ ka ea, acc = some (ka, ea) → ka ≤ k))) := by
  intro entries
  induction entries with
  | nil =>
    intro acc hacc
    constructor
    · simp
    · intro k r hfold
      rw [List.foldl_nil] at hfold
      refine ⟨hacc k r hfold, Or.inl hfold, by simp, ?_⟩
      intro ka ea hx
      rw [hfold] at hx
      simp only [Option.some.injEq, Prod.mk.injEq] at hx
      omega
  | cons p rest ih =>
    intro acc hacc
    rw [List.foldl_cons]
    by_cases helig : entryEligible allowed p = true
    · have hsome : (extract_yyyymm_from_name p.name).isSome = true := by
        have := helig
        unfold entryEligible at this
        simp only [Bool.and_eq_true] at this
        exact this.2
      obtain ⟨dt, hext⟩ := Option.isSome_iff_exists.mp hsome
      obtain ⟨k0, r0, hstep, hdt, horig, hold⟩ := pickStep_take acc p dt helig hext
      have hacc' : ∀ k e, pickStep allowed acc p = some (k, e) →
          extract_yyyymm_from_name e.name = some k := by
        intro k e hx
        rw [hstep] at hx
        simp only [Option.some.injEq, Prod.mk.injEq] at hx
        obtain ⟨rfl, rfl⟩ := hx
        rcases horig with ⟨rfl, rfl⟩ | hacceq
        · exact hext
        · exact hacc _ _ hacceq
      obtain ⟨ihnone, ihsome⟩ := ih (pickStep allowed acc p) hacc'
      constructor
      · rw [ihnone, hstep]
        constructor
        · intro hx
          cases hx.1
        · intro hx
          exact absurd helig (by simp [hx.2 p (List.mem_cons_self p rest)])
      · intro k r hfold
        obtain ⟨hextr, horigr, hmax, holdr⟩ := ihsome k r hfold
        have hk0 : k0 ≤ k := holdr k0 r0 hstep
        refine ⟨hextr, ?_, ?_, ?_⟩
        · rcases horigr with hacceq | ⟨hmem, he⟩
          · rw [hstep] at hacceq
            simp only [Option.some.injEq, Prod.mk.injEq] at hacceq
            obtain ⟨rfl, rfl⟩ := hacceq
            rcases horig with ⟨rfl, rfl⟩ | hacceq2
            · exact Or.inr ⟨List.mem_cons_self _ _, helig⟩
            · exact Or.inl hacceq2
          · exact Or.inr ⟨List.mem_cons_of_mem _ hmem, he⟩
        · intro e he helige
          rcases List.mem_cons.mp he with rfl | he
          · have : ymKey e = dt := by simp [ymKey, hext]
            omega
          · exact hmax e he helige
        · intro ka ea hx
          have := hold ka ea hx
          omega
    · have hstep : pickStep allowed acc p = acc :=
        pickStep_skip (by simpa using helig)
      rw [hstep]
      obtain ⟨ihnone, ihsome⟩ := ih acc hacc
      constructor
      · rw [ihnone]
        constructor
        · intro hx
          refine ⟨hx.1, ?_⟩
          intro e he
          rcases List.mem_cons.mp he with rfl | he
          · simpa using helig
          · exact hx.2 e he
        · intro hx
          exact ⟨hx.1, fun e he => hx.2 e (List.mem_cons_of_mem _ he)⟩
      · intro k r hfold
        obtain ⟨hextr, horigr, hmax, holdr⟩ := ihsome k r hfold
        refine ⟨hextr, ?_, ?_, holdr⟩
        · rcases horigr with hacceq | ⟨hmem, he⟩
          · exact Or.inl hacceq
          · exact Or.inr ⟨List.mem_cons_of_mem _ hmem, he⟩
        · intro e he helige
          rcases List.mem_cons.mp he with rfl | he
          · exact absurd helige helig
          · exact hmax e he helige

/-! ## Claim theorems for tier-1 generation and the selector -/

lemma tier1_subset {text : List Char} {c : Candidate}
    (h : c ∈ tier1 (linesOf text) ((linesOf text).map normalize)) :
    c ∈ candidatesOf text := by
  simp only [candidatesOf]
  exact List.mem_append_left _ (List.mem_append_left _ h)

lemma mem_tier1_of (lines norm : List (List Char)) {c : Candidate} (i j : ℕ)
    (hi : i < lines.length)
    (hz : containsTok kwZahlungen (norm.getD i []) = true)
    (hij : i ≤ j) (hjw : j < min (i + 20) lines.length)
    (hc : c ∈ tier1Hit lines norm j) :
    c ∈ tier1 lines norm := by
  unfold tier1
  rw [List.mem_flatMap]
  refine ⟨i, List.mem_range.mpr hi, ?_⟩
  rw [if_pos hz, List.mem_flatMap]
  refine ⟨j, ?_, hc⟩
  rw [List.mem_range']
  exact ⟨j - i, by omega, by omega⟩

/-- C2: tier-1 candidate generation — every "zahlungen" line `i` and
window position `j ∈ [i, min(i+20, n))` whose line carries the transfer
keyword contributes a candidate for line `j` at score `100` (+`20` for a
currency marker on line `j`), and, when line `j+1` exists, a candidate
for line `j+1` at that same computed score minus `5` (the bonus is not
re-evaluated on line `j+1`); each candidate is added only when the
amount grammar matches its own line. -/
theorem tier1_generation (text : List Char) (i j : ℕ)
    (hi : i < (linesOf text).length)
    (hz : containsTok kwZahlungen (((linesOf text).map normalize).getD i []) = true)
    (hij : i ≤ j)
    (hjw : j < min (i + 20) (linesOf text).length)
    (hkw : (containsTok kwUebAscii (((linesOf text).map normalize).getD j [])
        || containsTok kwUebUmlaut (pyLower ((linesOf text).getD j []))) = true) :
    (∀ raw, searchAmount ((linesOf text).getD j []) = some raw →
      (⟨100 + (if containsTok kwEur (((linesOf text).map normalize).getD j [])
            || containsTok euroSign ((linesOf text).getD j []) then 20 else 0),
        de_amount_to_float raw, raw, (linesOf text).getD j []⟩ : Candidate)
        ∈ candidatesOf text) ∧
    (j + 1 < (linesOf text).length →
      ∀ raw, searchAmount ((linesOf text).getD (j + 1) []) = some raw →
        (⟨100 + (if containsTok kwEur (((linesOf text).map normalize).getD j [])
              || containsTok euroSign ((linesOf text).getD j []) then 20 else 0) - 5,
          de_amount_to_float raw, raw, (linesOf text).getD (j + 1) []⟩ : Candidate)
          ∈ candidatesOf text) := by
  constructor
  · intro raw hraw
    apply tier1_subset
    apply mem_tier1_of _ _ i j hi hz hij hjw
    simp only [tier1Hit]
    rw [if_pos hkw]
    apply List.mem_append_left
    unfold add_candidate
    rw [hraw]
    exact List.mem_singleton.mpr rfl
  · intro hnext raw hraw
    apply tier1_subset
    apply mem_tier1_of _ _ i j hi hz hij hjw
    simp only [tier1Hit]
    rw [if_pos hkw]
    apply List.mem_append_right
    rw [if_pos hnext]
    unfold add_candidate
    rw [hraw]
    exact List.mem_singleton.mpr rfl

/-- Witness for C2 at "Zahlungen" line 0, window position 1. -/
theorem tier1_generation_witness :
    (⟨120, de_amount_to_float "1.200,00".toList, "1.200,00".toList,
      "überweisung 1.200,00 EUR".toList⟩ : Candidate) ∈
      candidatesOf "Zahlungen\nüberweisung 1.200,00 EUR".toList :=
  (tier1_generation "Zahlungen\nüberweisung 1.200,00 EUR".toList 0 1
    (by decide) (by decide) (by decide) (by decide) (by decide)).1
    "1.200,00".toList (by decide)

/-- C8: `pick_latest_entries` returns `none` exactly when no entry passes
the three filters (regular `.pdf` file, allowed prefix, year-month token
in the name); otherwise it returns an entry that passes them and whose
year-month key is maximal; on the spec's three files with the default
prefixes it picks "entgeltnachweis_202512.pdf". -/
theorem pick_latest_spec (allowed : List (List Char)) (entries : List DirEntry) :
    (pick_latest_entries allowed entries = none ↔
      ∀ e ∈ entries, entryEligible allowed e = false) ∧
    (∀ r, pick_latest_entries allowed entries = some r →
      r ∈ entries ∧ entryEligible allowed r = true ∧
      ∀ e ∈ entries, entryEligible allowed e = true → ymKey e ≤ ymKey r) ∧
    pick_latest_entries default_allowed
      [⟨"entgeltnachweis_202401.pdf".toList, true⟩,
       ⟨"entgeltnachweis_202512.pdf".toList, true⟩,
       ⟨"sonstiges_202601.pdf".toList, true⟩] =
      some ⟨"entgeltnachweis_202512.pdf".toList, true⟩ := by
  obtain ⟨hnone, hsome⟩ :=
    pick_fold_spec allowed entries none (by intro k e hx; cases hx)
  refine ⟨?_, ?_, by decide⟩
  · unfold pick_latest_entries
    rw [Option.map_eq_none', hnone]
    simp
  · intro r hr
    unfold pick_latest_entries at hr
    obtain ⟨b, hb, hb2⟩ := Option.map_eq_some'.mp hr
    obtain ⟨k, r0⟩ := b
    cases hb2
    obtain ⟨hext, horig, hmax, _⟩ := hsome k r0 hb
    rcases horig with hx | ⟨hmem, he⟩
    · cases hx
    · refine ⟨hmem, he, ?_⟩
      intro e hee helig
      have : ymKey r0 = k := by simp [ymKey, hext]
      rw [this]
      exact hmax e hee helig

/-- Witness for C8 on the spec's three files. -/
theorem pick_latest_spec_witness :
    (⟨"entgeltnachweis_202512.pdf".toList, true⟩ : DirEntry) ∈
      ([⟨"entgeltnachweis_202401.pdf".toList, true⟩,
        ⟨"entgeltnachweis_202512.pdf".toList, true⟩,
        ⟨"sonstiges_202601.pdf".toList, true⟩] : List DirEntry) ∧
    entryEligible default_allowed ⟨"entgeltnachweis_202512.pdf".toList, true⟩ = true :=
  ⟨((pick_latest_spec default_allowed
      [⟨"entgeltnachweis_202401.pdf".toList, true⟩,
       ⟨"entgeltnachweis_202512.pdf".toList, true⟩,
       ⟨"sonstiges_202601.pdf".toList, true⟩]).2.1 _ (by decide)).1,
   ((pick_latest_spec default_allowed
      [⟨"entgeltnachweis_202401.pdf".toList, true⟩,
       ⟨"entgeltnachweis_202512.pdf".toList, true⟩,
       ⟨"sonstiges_202601.pdf".toList, true⟩]).2.1 _ (by decide)).2.1⟩

/-- C9: `pick_latest_pdf` raises `FileNotFoundError` (modelled as
`Except.error`) exactly when the folder does not exist or is not a
directory (modelled as `folder = none`); on an existing directory it
never errors, and an entirely non-matching (in particular empty) listing
yields `Except.ok none`. -/
theorem pick_latest_pdf_notfound (folder : Option (List DirEntry))
    (allowed : List (List Char)) :
    ((∃ msg, pick_latest_pdf folder allowed = Except.error msg) ↔ folder = none) ∧
    (∀ entries, folder = some entries →
      pick_latest_pdf folder allowed =
        Except.ok (pick_latest_entries allowed entries)) ∧
    (∀ entries, (∀ e ∈ entries, entryEligible allowed e = false) →
      pick_latest_pdf (some entries) allowed = Except.ok none) := by
  refine ⟨?_, ?_, ?_⟩
  · cases folder with
    | none => simp [pick_latest_pdf]
    | some entries => simp [pick_latest_pdf]
  · rintro entries rfl
    rfl
  · intro entries hall
    have hnone := (pick_fold_spec allowed entries none (by intro k e hx; cases hx)).1
    have hfold : entries.foldl (pickStep allowed) none = none := hnone.mpr ⟨rfl, hall⟩
    show Except.ok (pick_latest_entries allowed entries) = Except.ok none
    unfold pick_latest_entries
    rw [hfold]
    rfl

/-- Witness for C9 at the empty listing. -/
theorem pick_latest_pdf_notfound_witness :
    pick_latest_pdf (some ([] : List DirEntry)) default_allowed =
        Except.ok (pick_latest_entries default_allowed []) ∧
    pick_latest_pdf (some ([] : List DirEntry)) default_allowed = Except.ok none :=
  ⟨(pick_latest_pdf_notfound (some []) default_allowed).2.1 [] rfl,
   (pick_latest_pdf_notfound (some []) default_allowed).2.2 []
     (by intro e he; cases he)⟩

end IncomeCalc
